import Mathlib

/-!
# Fingerprint identification worker — verified model

A shallow embedding of the batched, cancellable identification search of the
fingerprint worker (`worker.js`): chunk construction over an inclusive index
range, the sequential queue that drives chunks through the matching engine,
the stop/cancellation handling of the message handler, and the single `done`
report.

Conventions of the embedding:
* template blobs are an arbitrary type `α`; an entry read out of bounds of
  `work.items` (JavaScript `undefined`) is `none : Option α`, an in-bounds
  entry `i` is `some` of it, via `List.get?`;
* the matching engine (`dpfp.identify`, an external native library) is an
  oracle `List (Option α) → EngineResult`: for a submitted batch it either
  resolves with an integer (`idx ≥ 0` is a matched offset, a negative value
  means no match) or fails (rejected promise / thrown error);
* `identifyCount` (the engine's preferred batch size) is a parameter
  `batchSize`;
* the worker's `while` loop advances `current` by `batchSize` per iteration:
  it is embedded with a fuel argument `endIdx + 1 - start`, which is proved
  sufficient whenever `batchSize` is positive (the engine contract).
-/

/-- An entry of the `fps` array built by `verify` (worker.js lines 40-53):
the chunk's starting index and the templates handed to the engine.
An out-of-range read of `work.items` contributes `none` (undefined). -/
structure Chunk (α : Type) where
  start : Nat
  fmds : List (Option α)
deriving Repr, DecidableEq

/-- The inner `for` loop of the chunk builder (worker.js lines 45-50): push
`work.items[current + i]` for `i = 0, 1, ...` while `i < batchSize` and
`current + i ≤ endIdx`. -/
def chunkFmds (items : List α) (current endIdx batchSize : Nat) :
    List (Option α) :=
  (List.range (min batchSize (endIdx + 1 - current))).map
    fun i => items.get? (current + i)

/-- The `while (current <= end)` loop of `verify` (worker.js lines 40-53),
with `stop = false` (the `do` handler clears `stop` right before calling
`verify`).  The fuel argument bounds the number of iterations; callers pass
`endIdx + 1 - start`, which suffices when `batchSize > 0`. -/
def buildFpsAux (items : List α) (batchSize endIdx : Nat) :
    Nat → Nat → List (Chunk α)
  | 0, _ => []
  | fuel + 1, current =>
    if current ≤ endIdx then
      ⟨current, chunkFmds items current endIdx batchSize⟩ ::
        buildFpsAux items batchSize endIdx fuel (current + batchSize)
    else []

/-- The `fps` list built by `verify work start end` before the queue starts
(worker.js lines 36-53). -/
def buildFps (items : List α) (start endIdx batchSize : Nat) :
    List (Chunk α) :=
  buildFpsAux items batchSize endIdx (endIdx + 1 - start) start

/-- Result of one engine call `dpfp.identify(feature, fmds)`: the promise
either resolves with an integer, or rejects / the call throws. -/
inductive EngineResult where
  | resolve (idx : Int)
  | fail
deriving Repr, DecidableEq

/-- Observable result of driving the queue (worker.js lines 60-84):
the final `matched` value, the final `count`, and the list of chunks that
were actually handed to the engine, in submission order. -/
structure RunResult (α : Type) where
  matched : Option Nat
  count : Nat
  submitted : List (Chunk α)
deriving Repr, DecidableEq

/-- The queue handler of `verify` (worker.js lines 60-79), run to completion
over the chunk list: for each chunk, `count` is incremented by the chunk size
at submission time (line 62, before the engine resolves); a resolution
`idx ≥ 0` sets `matched = start + idx` and finishes the queue (discarding the
rest); a negative resolution moves to the next chunk; a failure is caught by
`errNext` and also moves to the next chunk. -/
def runQueue (engine : List (Option α) → EngineResult) :
    List (Chunk α) → Nat → RunResult α
  | [], count => ⟨none, count, []⟩
  | c :: rest, count =>
    match engine c.fmds with
    | .resolve idx =>
      if 0 ≤ idx then
        ⟨some (c.start + idx.toNat), count + c.fmds.length, [c]⟩
      else
        let r := runQueue engine rest (count + c.fmds.length)
        ⟨r.matched, r.count, c :: r.submitted⟩
    | .fail =>
        let r := runQueue engine rest (count + c.fmds.length)
        ⟨r.matched, r.count, c :: r.submitted⟩

/-- `verify(work, start, end)` in the absence of a stop command: build the
chunks, then drive them through the engine (worker.js lines 34-85). -/
def verify (engine : List (Option α) → EngineResult) (items : List α)
    (start endIdx batchSize : Nat) : RunResult α :=
  runQueue engine (buildFps items start endIdx batchSize) 0

/-- Size of a chunk, as handed to the engine. -/
def chunkSize (c : Chunk α) : Nat := c.fmds.length

/-! ## Basic facts about the chunk builder -/

theorem chunkFmds_length (items : List α) (current endIdx batchSize : Nat) :
    (chunkFmds items current endIdx batchSize).length
      = min batchSize (endIdx + 1 - current) := by
  simp [chunkFmds]

theorem buildFpsAux_nil (items : List α) (batchSize endIdx : Nat)
    (fuel current : Nat) (h : ¬ current ≤ endIdx) :
    buildFpsAux items batchSize endIdx fuel current = [] := by
  cases fuel with
  | zero => rfl
  | succ n => simp [buildFpsAux, h]

/-- Sum of chunk sizes: the chunks cover exactly `endIdx + 1 - current`
indices. -/
theorem buildFpsAux_sum (items : List α) {batchSize : Nat} (endIdx : Nat)
    (hb : 0 < batchSize) :
    ∀ fuel current, endIdx + 1 - current ≤ fuel →
      ((buildFpsAux items batchSize endIdx fuel current).map chunkSize).sum
        = endIdx + 1 - current := by
  intro fuel
  induction fuel with
  | zero => intro current h; simp [buildFpsAux]; omega
  | succ n ih =>
    intro current h
    by_cases hc : current ≤ endIdx
    · have hrec := ih (current + batchSize) (by omega)
      simp only [buildFpsAux, hc, if_true, List.map_cons, List.sum_cons, hrec,
        chunkSize, chunkFmds_length]
      omega
    · simp [buildFpsAux, hc]; omega

/-- Every chunk produced starts in `[current, endIdx]` and carries the
templates `chunkFmds` of its own start. -/
theorem buildFpsAux_mem (items : List α) {batchSize : Nat} (endIdx : Nat)
    (hb : 0 < batchSize) :
    ∀ fuel current, endIdx + 1 - current ≤ fuel →
      ∀ c ∈ buildFpsAux items batchSize endIdx fuel current,
        current ≤ c.start ∧ c.start ≤ endIdx ∧
          c.fmds = chunkFmds items c.start endIdx batchSize := by
  intro fuel
  induction fuel with
  | zero => intro current h c hc; simp [buildFpsAux] at hc
  | succ n ih =>
    intro current h c hc
    by_cases hcur : current ≤ endIdx
    · simp only [buildFpsAux, hcur, if_true, List.mem_cons] at hc
      rcases hc with hc | hc
      · subst hc; exact ⟨le_refl _, hcur, rfl⟩
      · have := ih (current + batchSize) (by omega) c hc
        exact ⟨by omega, this.2.1, this.2.2⟩
    · rw [buildFpsAux_nil items batchSize endIdx _ _ hcur] at hc
      simp at hc

/-- Adjacent chunks are contiguous (the next one begins right after where the
previous one ends) and their starts strictly increase. -/
theorem buildFpsAux_chain (items : List α) {batchSize : Nat} (endIdx : Nat)
    (hb : 0 < batchSize) :
    ∀ fuel current, endIdx + 1 - current ≤ fuel →
      List.Chain'
        (fun a c : Chunk α =>
          c.start = a.start + a.fmds.length ∧ a.start < c.start)
        (buildFpsAux items batchSize endIdx fuel current) := by
  intro fuel
  induction fuel with
  | zero => intro current h; simp [buildFpsAux]
  | succ n ih =>
    intro current h
    by_cases hcur : current ≤ endIdx
    · simp only [buildFpsAux, hcur, if_true]
      rw [List.chain'_cons']
      refine ⟨?_, ih (current + batchSize) (by omega)⟩
      intro c hc
      by_cases hnext : current + batchSize ≤ endIdx
      · cases n with
        | zero => omega
        | succ m =>
          simp only [buildFpsAux, hnext, if_true, List.head?_cons,
            Option.mem_def, Option.some.injEq] at hc
          subst hc
          refine ⟨?_, by dsimp only; omega⟩
          dsimp only
          rw [chunkFmds_length]
          omega
      · rw [buildFpsAux_nil items batchSize endIdx _ _ hnext] at hc
        simp at hc
    · rw [buildFpsAux_nil items batchSize endIdx _ _ hcur]
      simp

/-- Every index of `[current, endIdx]` is covered by some produced chunk. -/
theorem buildFpsAux_cover (items : List α) {batchSize : Nat} (endIdx : Nat)
    (hb : 0 < batchSize) :
    ∀ fuel current k, endIdx + 1 - current ≤ fuel → current ≤ k → k ≤ endIdx →
      ∃ c ∈ buildFpsAux items batchSize endIdx fuel current,
        c.start ≤ k ∧ k < c.start + c.fmds.length := by
  intro fuel
  induction fuel with
  | zero => intro current k h hk1 hk2; omega
  | succ n ih =>
    intro current k h hk1 hk2
    have hcur : current ≤ endIdx := le_trans hk1 hk2
    by_cases hin : k < current + min batchSize (endIdx + 1 - current)
    · refine ⟨⟨current, chunkFmds items current endIdx batchSize⟩, ?_, hk1, ?_⟩
      · simp [buildFpsAux, hcur]
      · simpa [chunkFmds_length] using hin
    · have hk : current + batchSize ≤ k := by omega
      obtain ⟨c, hc, hle, hlt⟩ :=
        ih (current + batchSize) k (by omega) hk hk2
      exact ⟨c, by simp [buildFpsAux, hcur, hc], hle, hlt⟩

/-- The first chunk, when the range is nonempty, starts at `start`. -/
theorem buildFps_head (items : List α) (start endIdx batchSize : Nat)
    (hle : start ≤ endIdx) :
    (buildFps items start endIdx batchSize).head?.map Chunk.start
      = some start := by
  unfold buildFps
  have h1 : endIdx + 1 - start = endIdx - start + 1 := by omega
  rw [h1]
  simp [buildFpsAux, hle]

/-! ## Basic facts about the queue run -/

/-- Unfolding `runQueue` on a chunk whose engine call resolves a nonnegative
offset: match found, queue finished. -/
theorem runQueue_cons_pos (engine : List (Option α) → EngineResult)
    (c0 : Chunk α) (rest : List (Chunk α)) (n : Nat) (idx : Int)
    (heng : engine c0.fmds = .resolve idx) (hpos : 0 ≤ idx) :
    runQueue engine (c0 :: rest) n
      = ⟨some (c0.start + idx.toNat), n + c0.fmds.length, [c0]⟩ := by
  simp only [runQueue, heng, hpos, if_true]

/-- Unfolding `runQueue` on a chunk whose engine call resolves a negative
value: no match on this chunk, move on. -/
theorem runQueue_cons_neg (engine : List (Option α) → EngineResult)
    (c0 : Chunk α) (rest : List (Chunk α)) (n : Nat) (idx : Int)
    (heng : engine c0.fmds = .resolve idx) (hneg : idx < 0) :
    runQueue engine (c0 :: rest) n
      = ⟨(runQueue engine rest (n + c0.fmds.length)).matched,
         (runQueue engine rest (n + c0.fmds.length)).count,
         c0 :: (runQueue engine rest (n + c0.fmds.length)).submitted⟩ := by
  simp only [runQueue, heng, not_le.mpr hneg, if_false]

/-- Unfolding `runQueue` on a chunk whose engine call fails: same as a
negative resolution (the `errNext` path). -/
theorem runQueue_cons_fail (engine : List (Option α) → EngineResult)
    (c0 : Chunk α) (rest : List (Chunk α)) (n : Nat)
    (heng : engine c0.fmds = .fail) :
    runQueue engine (c0 :: rest) n
      = ⟨(runQueue engine rest (n + c0.fmds.length)).matched,
         (runQueue engine rest (n + c0.fmds.length)).count,
         c0 :: (runQueue engine rest (n + c0.fmds.length)).submitted⟩ := by
  simp only [runQueue, heng]

/-- Chunks are submitted only out of the queued list. -/
theorem runQueue_submitted_subset (engine : List (Option α) → EngineResult) :
    ∀ (chunks : List (Chunk α)) (n : Nat),
      ∀ c ∈ (runQueue engine chunks n).submitted, c ∈ chunks := by
  intro chunks
  induction chunks with
  | nil => intro n c hc; simp [runQueue] at hc
  | cons c0 rest ih =>
    intro n c hc
    unfold runQueue at hc
    cases heng : engine c0.fmds with
    | resolve idx =>
      rw [heng] at hc
      by_cases hpos : 0 ≤ idx
      · simp only [hpos, if_true] at hc
        simp at hc
        simp [hc]
      · simp only [hpos, if_false] at hc
        simp only [List.mem_cons] at hc
        rcases hc with hc | hc
        · simp [hc]
        · exact List.mem_cons_of_mem _ (ih _ c hc)
    | fail =>
      rw [heng] at hc
      simp only [List.mem_cons] at hc
      rcases hc with hc | hc
      · simp [hc]
      · exact List.mem_cons_of_mem _ (ih _ c hc)

/-- The head of a nonempty queued list is always submitted. -/
theorem runQueue_head_submitted (engine : List (Option α) → EngineResult)
    (c0 : Chunk α) (rest : List (Chunk α)) (n : Nat) :
    c0 ∈ (runQueue engine (c0 :: rest) n).submitted := by
  unfold runQueue
  cases engine c0.fmds with
  | resolve idx =>
    by_cases hpos : 0 ≤ idx
    · simp [hpos]
    · simp [hpos]
  | fail => simp

/-- `count` is exactly the initial value plus the sizes of the chunks that
were submitted: each chunk is counted at submission time (worker.js line 62),
whatever its engine call later does. -/
theorem runQueue_count (engine : List (Option α) → EngineResult) :
    ∀ (chunks : List (Chunk α)) (n : Nat),
      (runQueue engine chunks n).count
        = n + (((runQueue engine chunks n).submitted).map chunkSize).sum := by
  intro chunks
  induction chunks with
  | nil => intro n; simp [runQueue]
  | cons c0 rest ih =>
    intro n
    unfold runQueue
    cases engine c0.fmds with
    | resolve idx =>
      by_cases hpos : 0 ≤ idx
      · simp [hpos, chunkSize]
      · simp only [hpos, if_false, List.map_cons, List.sum_cons]
        rw [ih]
        simp [chunkSize]
        omega
    | fail =>
      simp only [List.map_cons, List.sum_cons]
      rw [ih]
      simp [chunkSize]
      omega

/-- If the engine resolves `-1` on every submitted chunk, the queue walks the
whole list: no match, everything submitted in order. -/
theorem runQueue_all_neg (engine : List (Option α) → EngineResult) :
    ∀ (chunks : List (Chunk α)) (n : Nat),
      (∀ c ∈ (runQueue engine chunks n).submitted,
          engine c.fmds = .resolve (-1)) →
      (runQueue engine chunks n).matched = none ∧
        (runQueue engine chunks n).submitted = chunks := by
  intro chunks
  induction chunks with
  | nil => intro n _; simp [runQueue]
  | cons c0 rest ih =>
    intro n hneg
    have h0 : engine c0.fmds = .resolve (-1) :=
      hneg c0 (runQueue_head_submitted engine c0 rest n)
    rw [runQueue_cons_neg engine c0 rest n (-1) h0 (by norm_num)] at hneg ⊢
    have hrec := ih (n + c0.fmds.length) (by
      intro c hc
      exact hneg c (List.mem_cons_of_mem _ hc))
    exact ⟨hrec.1, by rw [hrec.2]⟩

/-- When a match is recorded, it comes from a submitted chunk: the engine
resolved a nonnegative offset on it and `matched = start + offset`. -/
theorem runQueue_matched_origin (engine : List (Option α) → EngineResult) :
    ∀ (chunks : List (Chunk α)) (n : Nat) (m : Nat),
      (runQueue engine chunks n).matched = some m →
      ∃ c ∈ (runQueue engine chunks n).submitted, ∃ idx : Int,
        engine c.fmds = .resolve idx ∧ 0 ≤ idx ∧ m = c.start + idx.toNat := by
  intro chunks
  induction chunks with
  | nil => intro n m hm; simp [runQueue] at hm
  | cons c0 rest ih =>
    intro n m hm
    cases heng : engine c0.fmds with
    | resolve idx =>
      by_cases hpos : 0 ≤ idx
      · rw [runQueue_cons_pos engine c0 rest n idx heng hpos] at hm ⊢
        refine ⟨c0, by simp, idx, heng, hpos, ?_⟩
        simpa using hm.symm
      · rw [runQueue_cons_neg engine c0 rest n idx heng (by omega)] at hm ⊢
        obtain ⟨c, hc, idx', h1, h2, h3⟩ := ih _ m hm
        exact ⟨c, List.mem_cons_of_mem _ hc, idx', h1, h2, h3⟩
    | fail =>
      rw [runQueue_cons_fail engine c0 rest n heng] at hm ⊢
      obtain ⟨c, hc, idx', h1, h2, h3⟩ := ih _ m hm
      exact ⟨c, List.mem_cons_of_mem _ hc, idx', h1, h2, h3⟩

/-- The chunk starts of `buildFps` are strictly increasing (pairwise). -/
theorem buildFps_sorted (items : List α) (start endIdx batchSize : Nat)
    (hb : 0 < batchSize) :
    List.Pairwise (fun a c : Chunk α => a.start < c.start)
      (buildFps items start endIdx batchSize) := by
  have hchain :=
    buildFpsAux_chain items endIdx hb (endIdx + 1 - start) start (le_refl _)
  have hlt :
      List.Chain' (fun a c : Chunk α => a.start < c.start)
        (buildFps items start endIdx batchSize) :=
    List.Chain'.imp (fun a b h => h.2) hchain
  haveI : IsTrans (Chunk α) (fun a c : Chunk α => a.start < c.start) :=
    ⟨fun a b c h1 h2 => Nat.lt_trans h1 h2⟩
  exact List.chain'_iff_pairwise.mp hlt

/-- Once a chunk matches, the reported match is that chunk's, and no chunk
beyond it is ever submitted. -/
theorem runQueue_match_shortcircuit (engine : List (Option α) → EngineResult) :
    ∀ (chunks : List (Chunk α)) (n : Nat) (c : Chunk α) (o : Int),
      List.Pairwise (fun a b : Chunk α => a.start < b.start) chunks →
      c ∈ (runQueue engine chunks n).submitted →
      engine c.fmds = .resolve o → 0 ≤ o →
      (runQueue engine chunks n).matched = some (c.start + o.toNat) ∧
        ∀ c' ∈ (runQueue engine chunks n).submitted, c'.start ≤ c.start := by
  intro chunks
  induction chunks with
  | nil => intro n c o _ hc; simp [runQueue] at hc
  | cons c0 rest ih =>
    intro n c o hsort hc heng ho
    cases h0 : engine c0.fmds with
    | resolve idx =>
      by_cases hpos : 0 ≤ idx
      · rw [runQueue_cons_pos engine c0 rest n idx h0 hpos] at hc ⊢
        dsimp only at hc ⊢
        simp only [List.mem_singleton] at hc
        subst hc
        have hio : o = idx := by
          have := heng.symm.trans h0
          injection this
        subst hio
        simp
      · rw [runQueue_cons_neg engine c0 rest n idx h0 (by omega)] at hc ⊢
        dsimp only at hc ⊢
        rcases List.mem_cons.mp hc with hceq | hcr
        · subst hceq
          have : o = idx := by
            have := heng.symm.trans h0
            injection this
          omega
        · have hrest :=
            ih (n + c0.fmds.length) c o ((List.pairwise_cons.mp hsort).2)
              hcr heng ho
          refine ⟨hrest.1, ?_⟩
          intro c' hc'
          rcases List.mem_cons.mp hc' with hc'eq | hc'r
          · subst hc'eq
            have hcin : c ∈ rest :=
              runQueue_submitted_subset engine rest _ c hcr
            exact le_of_lt ((List.pairwise_cons.mp hsort).1 c hcin)
          · exact hrest.2 c' hc'r
    | fail =>
      rw [runQueue_cons_fail engine c0 rest n h0] at hc ⊢
      dsimp only at hc ⊢
      rcases List.mem_cons.mp hc with hceq | hcr
      · subst hceq
        rw [heng] at h0
        cases h0
      · have hrest :=
          ih (n + c0.fmds.length) c o ((List.pairwise_cons.mp hsort).2)
            hcr heng ho
        refine ⟨hrest.1, ?_⟩
        intro c' hc'
        rcases List.mem_cons.mp hc' with hc'eq | hc'r
        · subst hc'eq
          have hcin : c ∈ rest :=
            runQueue_submitted_subset engine rest _ c hcr
          exact le_of_lt ((List.pairwise_cons.mp hsort).1 c hcin)
        · exact hrest.2 c' hc'r

/-! ## Claim theorems -/

/-- C1: for every `start ≤ endIdx` and positive `batchSize`, the chunks built
by the worker's `verify` partition `[start, endIdx]` exactly: the first chunk
begins at `start`, each chunk begins where the previous one ended plus one,
starts are strictly increasing, no chunk holds more than `batchSize`
templates, and the sizes sum to `endIdx - start + 1`. -/
theorem claim1_partition (items : List α) (start endIdx batchSize : Nat)
    (hle : start ≤ endIdx) (hb : 0 < batchSize) :
    ((buildFps items start endIdx batchSize).map chunkSize).sum
        = endIdx - start + 1 ∧
    (buildFps items start endIdx batchSize).head?.map Chunk.start
        = some start ∧
    List.Chain'
      (fun a c : Chunk α =>
        c.start = a.start + a.fmds.length ∧ a.start < c.start)
      (buildFps items start endIdx batchSize) ∧
    List.Pairwise (fun a c : Chunk α => a.start < c.start)
      (buildFps items start endIdx batchSize) ∧
    ∀ c ∈ buildFps items start endIdx batchSize, chunkSize c ≤ batchSize := by
  refine ⟨?_, buildFps_head items start endIdx batchSize hle,
    buildFpsAux_chain items endIdx hb (endIdx + 1 - start) start (le_refl _),
    buildFps_sorted items start endIdx batchSize hb, ?_⟩
  · rw [buildFps,
      buildFpsAux_sum items endIdx hb (endIdx + 1 - start) start (le_refl _)]
    omega
  · intro c hc
    have := buildFpsAux_mem items endIdx hb (endIdx + 1 - start) start
      (le_refl _) c hc
    rw [chunkSize, this.2.2, chunkFmds_length]
    omega

/-- Witness for C1 at `start = 0`, `endIdx = 9`, `batchSize = 4` over ten
items. -/
theorem claim1_partition_witness :
    (0:Nat) ≤ 9 ∧ (0:Nat) < 4 ∧
    (((buildFps (List.range 10) 0 9 4).map chunkSize).sum = 10 ∧
      (buildFps (List.range 10) 0 9 4).head?.map Chunk.start = some 0 ∧
      List.Chain'
        (fun a c : Chunk Nat =>
          c.start = a.start + a.fmds.length ∧ a.start < c.start)
        (buildFps (List.range 10) 0 9 4) ∧
      List.Pairwise (fun a c : Chunk Nat => a.start < c.start)
        (buildFps (List.range 10) 0 9 4) ∧
      ∀ c ∈ buildFps (List.range 10) 0 9 4, chunkSize c ≤ 4) :=
  ⟨by decide, by decide,
    claim1_partition (List.range 10) 0 9 4 (by decide) (by decide)⟩

/-- A sample engine for the worked example of C2: it matches at offset `1`
exactly on the batch of templates `4..7` and reports no match otherwise. -/
def exEngine : List (Option Nat) → EngineResult := fun fmds =>
  if fmds = [some 4, some 5, some 6, some 7] then .resolve 1 else .resolve (-1)

/-- C2: if the engine call for the submitted chunk starting at `c.start`
resolves a nonnegative offset `o`, the final `matched` equals
`c.start + o` and no chunk with a larger start is ever submitted; in
particular for `start = 0`, `endIdx = 9`, `batchSize = 4` (chunks
`[0-3],[4-7],[8-9]`), an offset of `1` on chunk `[4-7]` yields `matched = 5`
and chunk `[8-9]` is never submitted. -/
theorem claim2_match_shortcircuit (engine : List (Option α) → EngineResult)
    (items : List α) (start endIdx batchSize : Nat) (c : Chunk α) (o : Int)
    (hb : 0 < batchSize)
    (hsub : c ∈ (verify engine items start endIdx batchSize).submitted)
    (heng : engine c.fmds = .resolve o) (ho : 0 ≤ o) :
    ((verify engine items start endIdx batchSize).matched
        = some (c.start + o.toNat) ∧
      ∀ c' ∈ (verify engine items start endIdx batchSize).submitted,
        c'.start ≤ c.start) ∧
    ((verify exEngine (List.range 10) 0 9 4).matched = some 5 ∧
      (verify exEngine (List.range 10) 0 9 4).submitted.map Chunk.start
        = [0, 4] ∧
      (buildFps (List.range 10) 0 9 4).map Chunk.start = [0, 4, 8]) := by
  refine ⟨?_, by decide, by decide, by decide⟩
  exact runQueue_match_shortcircuit engine
    (buildFps items start endIdx batchSize) 0 c o
    (buildFps_sorted items start endIdx batchSize hb) hsub heng ho

/-- Witness for C2 on the worked example itself: the chunk `[4-7]` is
submitted, the engine resolves offset `1` on it, and the theorem reports
`matched = 4 + 1` with no later chunk submitted. -/
theorem claim2_match_shortcircuit_witness :
    (0:Nat) < 4 ∧
    (⟨4, [some 4, some 5, some 6, some 7]⟩ : Chunk Nat)
        ∈ (verify exEngine (List.range 10) 0 9 4).submitted ∧
    exEngine [some 4, some 5, some 6, some 7] = .resolve 1 ∧
    (0:Int) ≤ 1 ∧
    (((verify exEngine (List.range 10) 0 9 4).matched = some (4 + (1:Int).toNat) ∧
      ∀ c' ∈ (verify exEngine (List.range 10) 0 9 4).submitted,
        c'.start ≤ 4) ∧
    ((verify exEngine (List.range 10) 0 9 4).matched = some 5 ∧
      (verify exEngine (List.range 10) 0 9 4).submitted.map Chunk.start
        = [0, 4] ∧
      (buildFps (List.range 10) 0 9 4).map Chunk.start = [0, 4, 8])) :=
  ⟨by decide, by decide, by decide, by decide,
    claim2_match_shortcircuit exEngine (List.range 10) 0 9 4
      ⟨4, [some 4, some 5, some 6, some 7]⟩ 1
      (by decide) (by decide) (by decide) (by decide)⟩

/-- Replacing engine failures by `-1` resolutions changes nothing observable:
the `errNext` path and the negative-resolution path of the queue handler are
the same. -/
theorem runQueue_mask_fail (e1 e2 : List (Option α) → EngineResult)
    (hmask : ∀ f, e1 f = e2 f ∨ (e1 f = .fail ∧ e2 f = .resolve (-1))) :
    ∀ (chunks : List (Chunk α)) (n : Nat),
      runQueue e1 chunks n = runQueue e2 chunks n := by
  intro chunks
  induction chunks with
  | nil => intro n; rfl
  | cons c0 rest ih =>
    intro n
    rcases hmask c0.fmds with heq | ⟨hf, hneg⟩
    · cases h2 : e2 c0.fmds with
      | resolve idx =>
        by_cases hpos : 0 ≤ idx
        · rw [runQueue_cons_pos e1 c0 rest n idx (heq.trans h2) hpos,
            runQueue_cons_pos e2 c0 rest n idx h2 hpos]
        · rw [runQueue_cons_neg e1 c0 rest n idx (heq.trans h2) (by omega),
            runQueue_cons_neg e2 c0 rest n idx h2 (by omega), ih]
      | fail =>
        rw [runQueue_cons_fail e1 c0 rest n (heq.trans h2),
          runQueue_cons_fail e2 c0 rest n h2, ih]
    · rw [runQueue_cons_fail e1 c0 rest n hf,
        runQueue_cons_neg e2 c0 rest n (-1) hneg (by norm_num), ih]

/-- C3: if the engine resolves `-1` on every submitted chunk of a search over
`start ≤ endIdx`, the search ends with `matched = null`, a count of
`endIdx - start + 1`, and every chunk submitted exactly once, in order. -/
theorem claim3_exhaustive_no_match (engine : List (Option α) → EngineResult)
    (items : List α) (start endIdx batchSize : Nat)
    (hle : start ≤ endIdx) (hb : 0 < batchSize)
    (hneg : ∀ c ∈ (verify engine items start endIdx batchSize).submitted,
        engine c.fmds = .resolve (-1)) :
    (verify engine items start endIdx batchSize).matched = none ∧
    (verify engine items start endIdx batchSize).count
        = endIdx - start + 1 ∧
    (verify engine items start endIdx batchSize).submitted
        = buildFps items start endIdx batchSize := by
  have h := runQueue_all_neg engine (buildFps items start endIdx batchSize)
    0 hneg
  refine ⟨h.1, ?_, h.2⟩
  show (runQueue engine (buildFps items start endIdx batchSize) 0).count
      = endIdx - start + 1
  rw [runQueue_count engine (buildFps items start endIdx batchSize) 0, h.2,
    buildFps,
    buildFpsAux_sum items endIdx hb (endIdx + 1 - start) start (le_refl _)]
  omega

/-- A sample engine that never matches. -/
def noMatchEngine : List (Option Nat) → EngineResult := fun _ => .resolve (-1)

/-- Witness for C3: ten items, chunks of four, an engine that always
resolves `-1`. -/
theorem claim3_exhaustive_no_match_witness :
    (0:Nat) ≤ 9 ∧ (0:Nat) < 4 ∧
    (∀ c ∈ (verify noMatchEngine (List.range 10) 0 9 4).submitted,
        noMatchEngine c.fmds = .resolve (-1)) ∧
    ((verify noMatchEngine (List.range 10) 0 9 4).matched = none ∧
      (verify noMatchEngine (List.range 10) 0 9 4).count = 10 ∧
      (verify noMatchEngine (List.range 10) 0 9 4).submitted
        = buildFps (List.range 10) 0 9 4) :=
  ⟨by decide, by decide, by decide,
    claim3_exhaustive_no_match noMatchEngine (List.range 10) 0 9 4
      (by decide) (by decide) (by decide)⟩

/-- C5: an engine failure on a chunk is treated exactly as a no-match for
that chunk — the run of a failing engine is observably identical to the run
of the same engine with each failure replaced by a `-1` resolution; in
particular a run in which every engine call fails ends with `matched = null`
after submitting every chunk, indistinguishable from an exhaustive true
negative. -/
theorem claim5_failure_masked (e1 e2 : List (Option α) → EngineResult)
    (chunks : List (Chunk α)) (n : Nat)
    (hmask : ∀ f, e1 f = e2 f ∨ (e1 f = .fail ∧ e2 f = .resolve (-1))) :
    runQueue e1 chunks n = runQueue e2 chunks n ∧
    (runQueue (fun _ : List (Option α) => EngineResult.fail) chunks n
        = runQueue (fun _ : List (Option α) => EngineResult.resolve (-1))
            chunks n ∧
      (runQueue (fun _ : List (Option α) => EngineResult.fail) chunks n).matched
        = none ∧
      (runQueue (fun _ : List (Option α) => EngineResult.fail) chunks n).submitted
        = chunks) := by
  have hfail :
      runQueue (fun _ : List (Option α) => EngineResult.fail) chunks n
        = runQueue (fun _ : List (Option α) => EngineResult.resolve (-1))
            chunks n :=
    runQueue_mask_fail _ _ (fun _ => Or.inr ⟨rfl, rfl⟩) chunks n
  have hneg := runQueue_all_neg
    (fun _ : List (Option α) => EngineResult.resolve (-1)) chunks n
    (fun c _ => rfl)
  exact ⟨runQueue_mask_fail e1 e2 hmask chunks n, hfail,
    by rw [hfail]; exact hneg.1, by rw [hfail]; exact hneg.2⟩

/-- A sample engine that always fails. -/
def failEngine : List (Option Nat) → EngineResult := fun _ => .fail

/-- Witness for C5: the all-fail engine against the all-`-1` engine on the
chunks of `[0,9]` with batches of four. -/
theorem claim5_failure_masked_witness :
    (∀ f, failEngine f = noMatchEngine f ∨
        (failEngine f = .fail ∧ noMatchEngine f = .resolve (-1))) ∧
    (runQueue failEngine (buildFps (List.range 10) 0 9 4) 0
        = runQueue noMatchEngine (buildFps (List.range 10) 0 9 4) 0 ∧
      (runQueue (fun _ : List (Option Nat) => EngineResult.fail)
          (buildFps (List.range 10) 0 9 4) 0
        = runQueue (fun _ : List (Option Nat) => EngineResult.resolve (-1))
            (buildFps (List.range 10) 0 9 4) 0 ∧
      (runQueue (fun _ : List (Option Nat) => EngineResult.fail)
          (buildFps (List.range 10) 0 9 4) 0).matched = none ∧
      (runQueue (fun _ : List (Option Nat) => EngineResult.fail)
          (buildFps (List.range 10) 0 9 4) 0).submitted
        = buildFps (List.range 10) 0 9 4)) :=
  ⟨fun _ => Or.inr ⟨rfl, rfl⟩,
    claim5_failure_masked failEngine noMatchEngine
      (buildFps (List.range 10) 0 9 4) 0 (fun _ => Or.inr ⟨rfl, rfl⟩)⟩

/-- A sample engine that reports a match at offset `0` on every batch. -/
def zeroEngine : List (Option Nat) → EngineResult := fun _ => .resolve 0

/-- C8 counterexample: the code increments `count` at submission time
(worker.js line 62), not when the engine resolves `-1`.  On the single-chunk
search over `[0,0]`, a search that terminates by an immediate match still
counts that chunk (`count = 1`, the claim would require `0`), and so does a
search whose only engine call fails. -/
theorem claim8_count_cex :
    (verify zeroEngine [0] 0 0 1).matched = some 0 ∧
    (verify zeroEngine [0] 0 0 1).submitted.map chunkSize = [1] ∧
    (verify zeroEngine [0] 0 0 1).count ≠ 0 ∧
    (verify zeroEngine [0] 0 0 1).count = 1 ∧
    (verify failEngine [0] 0 0 1).matched = none ∧
    (verify failEngine [0] 0 0 1).count = 1 := by decide

/-- C8 amended: `count` is incremented by the chunk's size at submission
time (before the engine call resolves), so the final count equals the sum of
the sizes of all submitted chunks — a chunk on which the search terminated
by match, or whose engine call failed, is counted as well. -/
theorem claim8_count_at_submission (engine : List (Option α) → EngineResult)
    (items : List α) (start endIdx batchSize : Nat) :
    (verify engine items start endIdx batchSize).count
      = (((verify engine items start endIdx batchSize).submitted).map
          chunkSize).sum := by
  simpa using runQueue_count engine (buildFps items start endIdx batchSize) 0

/-- C9: under the engine contract that a resolved nonnegative offset is
smaller than the size of the submitted batch, a recorded match lies within
`[start, endIdx]`. -/
theorem claim9_matched_in_range (engine : List (Option α) → EngineResult)
    (items : List α) (start endIdx batchSize m : Nat)
    (_hle : start ≤ endIdx) (hb : 0 < batchSize)
    (hcontract : ∀ f idx, engine f = .resolve idx → 0 ≤ idx →
        idx.toNat < f.length)
    (hm : (verify engine items start endIdx batchSize).matched = some m) :
    start ≤ m ∧ m ≤ endIdx := by
  obtain ⟨c, hc, idx, h1, h2, h3⟩ :=
    runQueue_matched_origin engine (buildFps items start endIdx batchSize)
      0 m hm
  have hcin :=
    runQueue_submitted_subset engine (buildFps items start endIdx batchSize)
      0 c hc
  have hmem := buildFpsAux_mem items endIdx hb (endIdx + 1 - start) start
    (le_refl _) c hcin
  have hlen := hcontract c.fmds idx h1 h2
  rw [hmem.2.2, chunkFmds_length] at hlen
  omega

/-- The engine contract holds for the sample engine of the worked example. -/
theorem exEngine_contract :
    ∀ f idx, exEngine f = .resolve idx → 0 ≤ idx → idx.toNat < f.length := by
  intro f idx h1 h2
  unfold exEngine at h1
  by_cases hf : f = [some 4, some 5, some 6, some 7]
  · rw [if_pos hf] at h1
    injection h1 with h
    subst hf
    simp only [List.length_cons, List.length_nil]
    omega
  · rw [if_neg hf] at h1
    injection h1 with h
    omega

/-- Witness for C9 on the worked example: the match at `5` lies within
`[0, 9]`. -/
theorem claim9_matched_in_range_witness :
    (0:Nat) ≤ 9 ∧ (0:Nat) < 4 ∧
    (∀ f idx, exEngine f = .resolve idx → 0 ≤ idx → idx.toNat < f.length) ∧
    (verify exEngine (List.range 10) 0 9 4).matched = some 5 ∧
    ((0:Nat) ≤ 5 ∧ (5:Nat) ≤ 9) :=
  ⟨by decide, by decide, exEngine_contract, by decide,
    claim9_matched_in_range exEngine (List.range 10) 0 9 4 5 (by decide)
      (by decide) exEngine_contract (by decide)⟩

/-- The entry of a chunk at an in-range absolute index `k` is exactly
`items.get? k`. -/
theorem chunkFmds_mem_get (items : List α) (current endIdx batchSize k : Nat)
    (h1 : current ≤ k)
    (h2 : k < current + min batchSize (endIdx + 1 - current)) :
    items.get? k ∈ chunkFmds items current endIdx batchSize := by
  unfold chunkFmds
  refine List.mem_map.mpr ⟨k - current, List.mem_range.mpr (by omega), ?_⟩
  congr 1
  omega

/-- C10: chunk construction bounds the inner loop only by `endIdx`, never by
the length of `work.items`; when the items list is shorter than `endIdx + 1`
the chunks still cover all of `[start, endIdx]` and contain `none`
(JavaScript `undefined`) entries, and such a chunk is handed to the engine. -/
theorem claim10_undefined_entries (items : List α)
    (start endIdx batchSize : Nat)
    (hle : start ≤ endIdx) (hb : 0 < batchSize)
    (hshort : items.length ≤ endIdx) :
    ((buildFps items start endIdx batchSize).map chunkSize).sum
        = endIdx - start + 1 ∧
    ∃ c ∈ (verify (fun _ : List (Option α) => EngineResult.resolve (-1))
        items start endIdx batchSize).submitted,
      none ∈ c.fmds := by
  constructor
  · rw [buildFps,
      buildFpsAux_sum items endIdx hb (endIdx + 1 - start) start (le_refl _)]
    omega
  · obtain ⟨c, hc, hcle, hclt⟩ := buildFpsAux_cover items endIdx hb
      (endIdx + 1 - start) start endIdx (le_refl _) hle (le_refl _)
    have hmem := buildFpsAux_mem items endIdx hb (endIdx + 1 - start) start
      (le_refl _) c hc
    have hsub :
        (verify (fun _ : List (Option α) => EngineResult.resolve (-1))
            items start endIdx batchSize).submitted
          = buildFps items start endIdx batchSize :=
      (runQueue_all_neg _ (buildFps items start endIdx batchSize) 0
        (fun _ _ => rfl)).2
    refine ⟨c, by rw [hsub]; exact hc, ?_⟩
    have hnone : items.get? endIdx = none := by
      rw [List.get?_eq_none]
      exact hshort
    rw [hmem.2.2] at hclt ⊢
    rw [chunkFmds_length] at hclt
    rw [← hnone]
    exact chunkFmds_mem_get items c.start endIdx batchSize endIdx hcle hclt

/-- Witness for C10: one item but a range `[0, 2]` — the partition still
covers three indices and an out-of-bounds `none` entry reaches the engine. -/
theorem claim10_undefined_entries_witness :
    (0:Nat) ≤ 2 ∧ (0:Nat) < 2 ∧ ([5]:List Nat).length ≤ 2 ∧
    (((buildFps [5] 0 2 2).map chunkSize).sum = 3 ∧
      ∃ c ∈ (verify (fun _ : List (Option Nat) => EngineResult.resolve (-1))
          [5] 0 2 2).submitted,
        none ∈ c.fmds) :=
  ⟨by decide, by decide, by decide,
    claim10_undefined_entries [5] 0 2 2 (by decide) (by decide) (by decide)⟩

/-! ## The worker message handler as a state machine

The single-threaded worker suspends only while an engine promise is pending.
Between suspension points the possible events are: the in-flight engine call
resolving (with an index or a failure), or a `stop` message arriving
(worker.js lines 95-110).  The machine below mirrors the shared mutable
state of worker.js: the `Queue` of pending chunks (`@ntlab/work/queue`:
`next()` hands the next item to the handler or emits `done` when none
remain; `done()` emits `done` at once; `clear()` drops the pending items),
the `count`/`matched` variables, the `stop` flag, and the nulling of `queue`
by the `done` handler. -/

/-- A work item as delivered in the `do` message: an identifier, the feature
searched for (an opaque blob, named by an identifier), and the ordered
template list. -/
structure WorkItem (α : Type) where
  id : Nat
  feature : Nat
  items : List α
deriving Repr, DecidableEq

/-- The outbound message of worker.js line 83:
`{cmd: 'done', work, matched, worker}`. -/
structure DoneMsg (α : Type) where
  cmd : String
  work : WorkItem α
  matched : Option Nat
  worker : Nat
deriving Repr, DecidableEq

/-- Worker state between suspension points.  `queueAlive` is `queue !== null`;
`sent` collects the outbound messages; `outcome` collects the pairs
(`matched`, `count`) observable at each `done` emission (line 82's log);
`submitted` collects every chunk handed to the engine, in order. -/
structure WState (α : Type) where
  work : WorkItem α
  wid : Nat
  pending : List (Chunk α)
  inflight : Option (Chunk α)
  count : Nat
  matched : Option Nat
  stopFlag : Bool
  queueAlive : Bool
  sent : List (DoneMsg α)
  outcome : List (Option Nat × Nat)
  submitted : List (Chunk α)
deriving Repr, DecidableEq

/-- The queue's `done` event (worker.js lines 80-84): null the queue and
send the `done` message built from the current `matched`. -/
def emitDone (s : WState α) : WState α :=
  { s with queueAlive := false,
           sent := s.sent ++ [⟨"done", s.work, s.matched, s.wid⟩],
           outcome := s.outcome ++ [(s.matched, s.count)] }

/-- `queue.next()` / queue start: hand the next pending chunk to the handler
(worker.js lines 60-62: it is counted immediately and the engine call is
left in flight), or emit `done` when nothing remains. -/
def submitNext (s : WState α) : WState α :=
  match s.pending with
  | [] => emitDone s
  | c :: rest =>
    { s with pending := rest, inflight := some c,
             count := s.count + c.fmds.length,
             submitted := s.submitted ++ [c] }

/-- Events at the worker's suspension points: the in-flight engine promise
resolves with an index, it fails, or a `stop` message arrives. -/
inductive Ev where
  | resolve (idx : Int)
  | fail
  | stopMsg
deriving Repr, DecidableEq

/-- One event of the running search (worker.js lines 60-84 and 95-110).
A `stop` sets the flag and, when the queue exists, clears it and forces its
`done` event; a resolution with `idx ≥ 0` records the match and calls
`queue.done()` (a no-op emission-wise when the queue is already null); a
negative resolution or a failure calls `queue.next()` when the queue still
exists. -/
def step (s : WState α) : Ev → WState α
  | .stopMsg =>
    if s.queueAlive then
      emitDone { s with stopFlag := true, pending := [] }
    else { s with stopFlag := true }
  | .resolve idx =>
    match s.inflight with
    | none => s
    | some c =>
      if 0 ≤ idx then
        if s.queueAlive then
          emitDone { s with matched := some (c.start + idx.toNat),
                            inflight := none }
        else { s with matched := some (c.start + idx.toNat),
                      inflight := none }
      else
        if s.queueAlive then submitNext { s with inflight := none }
        else { s with inflight := none }
  | .fail =>
    match s.inflight with
    | none => s
    | some _ =>
      if s.queueAlive then submitNext { s with inflight := none }
      else { s with inflight := none }

/-- State right after an accepted `do` message (worker.js lines 97-99):
`stop` cleared, chunks built, queue created and started — its first chunk
handed to the handler, or `done` emitted at once when there is none. -/
def initState (work : WorkItem α) (wid start endIdx batchSize : Nat) :
    WState α :=
  submitNext
    { work := work, wid := wid,
      pending := buildFps work.items start endIdx batchSize,
      inflight := none, count := 0, matched := none, stopFlag := false,
      queueAlive := true, sent := [], outcome := [], submitted := [] }

/-- Run the machine over a list of events. -/
def runW (s : WState α) (evs : List Ev) : WState α :=
  evs.foldl step s

/-! ### Invariants of the machine -/

/-- The message invariant: before the queue's `done` event, nothing has been
sent; afterwards, exactly one `done` message with this work item and worker
identity. -/
def SentInv (work : WorkItem α) (wid : Nat) (s : WState α) : Prop :=
  s.work = work ∧ s.wid = wid ∧
  (s.queueAlive = true → s.sent = []) ∧
  (s.queueAlive = false → ∃ m, s.sent = [⟨"done", work, m, wid⟩])

theorem sentInv_emitDone {work : WorkItem α} {wid : Nat} {s : WState α}
    (hInv : SentInv work wid s) (halive : s.queueAlive = true) :
    SentInv work wid (emitDone s) := by
  obtain ⟨hw, hi, h1, h2⟩ := hInv
  refine ⟨hw, hi, ?_, ?_⟩
  · intro h; simp [emitDone] at h
  · intro _
    exact ⟨s.matched, by simp [emitDone, h1 halive, hw, hi]⟩

theorem sentInv_submitNext {work : WorkItem α} {wid : Nat} {s : WState α}
    (hInv : SentInv work wid s) (halive : s.queueAlive = true) :
    SentInv work wid (submitNext s) := by
  obtain ⟨hw, hi, h1, h2⟩ := hInv
  cases hp : s.pending with
  | nil =>
    have hs : submitNext s = emitDone s := by unfold submitNext; rw [hp]
    rw [hs]
    exact sentInv_emitDone ⟨hw, hi, h1, h2⟩ halive
  | cons c rest =>
    have hs : submitNext s
        = { s with pending := rest, inflight := some c,
                   count := s.count + c.fmds.length,
                   submitted := s.submitted ++ [c] } := by
      unfold submitNext; rw [hp]
    rw [hs]
    exact ⟨hw, hi, h1, h2⟩

/-! ### Unfolding `step` at each kind of event -/

theorem step_stop_alive (s : WState α) (h : s.queueAlive = true) :
    step s .stopMsg = emitDone { s with stopFlag := true, pending := [] } := by
  simp [step, h]

theorem step_stop_dead (s : WState α) (h : s.queueAlive = false) :
    step s .stopMsg = { s with stopFlag := true } := by
  simp [step, h]

theorem step_resolve_none (s : WState α) (idx : Int)
    (hin : s.inflight = none) : step s (.resolve idx) = s := by
  simp [step, hin]

theorem step_fail_none (s : WState α) (hin : s.inflight = none) :
    step s .fail = s := by
  simp [step, hin]

theorem step_resolve_pos_alive (s : WState α) (c : Chunk α) (idx : Int)
    (hin : s.inflight = some c) (hpos : 0 ≤ idx)
    (halive : s.queueAlive = true) :
    step s (.resolve idx)
      = emitDone { s with matched := some (c.start + idx.toNat),
                          inflight := none } := by
  simp [step, hin, hpos, halive]

theorem step_resolve_pos_dead (s : WState α) (c : Chunk α) (idx : Int)
    (hin : s.inflight = some c) (hpos : 0 ≤ idx)
    (hdead : s.queueAlive = false) :
    step s (.resolve idx)
      = { s with matched := some (c.start + idx.toNat), inflight := none } := by
  simp [step, hin, hpos, hdead]

theorem step_resolve_neg_alive (s : WState α) (c : Chunk α) (idx : Int)
    (hin : s.inflight = some c) (hneg : idx < 0)
    (halive : s.queueAlive = true) :
    step s (.resolve idx) = submitNext { s with inflight := none } := by
  simp [step, hin, not_le.mpr hneg, halive]

theorem step_resolve_neg_dead (s : WState α) (c : Chunk α) (idx : Int)
    (hin : s.inflight = some c) (hneg : idx < 0)
    (hdead : s.queueAlive = false) :
    step s (.resolve idx) = { s with inflight := none } := by
  simp [step, hin, not_le.mpr hneg, hdead]

theorem step_fail_alive (s : WState α) (c : Chunk α)
    (hin : s.inflight = some c) (halive : s.queueAlive = true) :
    step s .fail = submitNext { s with inflight := none } := by
  simp [step, hin, halive]

theorem step_fail_dead (s : WState α) (c : Chunk α)
    (hin : s.inflight = some c) (hdead : s.queueAlive = false) :
    step s .fail = { s with inflight := none } := by
  simp [step, hin, hdead]

theorem sentInv_step {work : WorkItem α} {wid : Nat} (s : WState α) (e : Ev)
    (hInv : SentInv work wid s) : SentInv work wid (step s e) := by
  obtain ⟨hw, hi, h1, h2⟩ := hInv
  cases e with
  | stopMsg =>
    cases halive : s.queueAlive with
    | true =>
      rw [step_stop_alive s halive]
      exact sentInv_emitDone ⟨hw, hi, h1, h2⟩ halive
    | false =>
      rw [step_stop_dead s halive]
      exact ⟨hw, hi, h1, h2⟩
  | resolve idx =>
    cases hin : s.inflight with
    | none => rw [step_resolve_none s idx hin]; exact ⟨hw, hi, h1, h2⟩
    | some c =>
      by_cases hpos : 0 ≤ idx
      · cases halive : s.queueAlive with
        | true =>
          rw [step_resolve_pos_alive s c idx hin hpos halive]
          exact sentInv_emitDone ⟨hw, hi, h1, h2⟩ halive
        | false =>
          rw [step_resolve_pos_dead s c idx hin hpos halive]
          exact ⟨hw, hi, h1, h2⟩
      · cases halive : s.queueAlive with
        | true =>
          rw [step_resolve_neg_alive s c idx hin (by omega) halive]
          exact sentInv_submitNext ⟨hw, hi, h1, h2⟩ halive
        | false =>
          rw [step_resolve_neg_dead s c idx hin (by omega) halive]
          exact ⟨hw, hi, h1, h2⟩
  | fail =>
    cases hin : s.inflight with
    | none => rw [step_fail_none s hin]; exact ⟨hw, hi, h1, h2⟩
    | some c =>
      cases halive : s.queueAlive with
      | true =>
        rw [step_fail_alive s c hin halive]
        exact sentInv_submitNext ⟨hw, hi, h1, h2⟩ halive
      | false =>
        rw [step_fail_dead s c hin halive]
        exact ⟨hw, hi, h1, h2⟩

theorem sentInv_runW {work : WorkItem α} {wid : Nat} (s : WState α)
    (evs : List Ev) (hInv : SentInv work wid s) :
    SentInv work wid (runW s evs) := by
  induction evs generalizing s with
  | nil => exact hInv
  | cons e rest ih => exact ih (step s e) (sentInv_step s e hInv)

theorem sentInv_init (work : WorkItem α) (wid start endIdx batchSize : Nat) :
    SentInv work wid (initState work wid start endIdx batchSize) :=
  sentInv_submitNext
    ⟨rfl, rfl, fun _ => rfl, fun h => by simp at h⟩ rfl

/-- C6: for every accepted `do` command, whatever engine resolutions,
failures and stop messages follow, at most one outbound message is ever
sent, exactly one has been sent whenever the queue is finished, and any sent
message is `{cmd: 'done', work: the received work item, matched, worker:
this worker's identity}`. -/
theorem claim6_exactly_one_done (work : WorkItem α)
    (wid start endIdx batchSize : Nat) (evs : List Ev) :
    ∃ m : Option Nat,
      (runW (initState work wid start endIdx batchSize) evs).sent
        = if (runW (initState work wid start endIdx batchSize) evs).queueAlive
          then [] else [⟨"done", work, m, wid⟩] := by
  obtain ⟨hw, hi, h1, h2⟩ :=
    sentInv_runW (initState work wid start endIdx batchSize) evs
      (sentInv_init work wid start endIdx batchSize)
  cases halive : (runW (initState work wid start endIdx batchSize)
      evs).queueAlive with
  | true => exact ⟨none, by simpa using h1 halive⟩
  | false =>
    obtain ⟨m, hm⟩ := h2 halive
    exact ⟨m, by simpa using hm⟩

/-! ### After the queue is gone, nothing observable changes -/

theorem step_dead_frame (s : WState α) (e : Ev)
    (hdead : s.queueAlive = false) :
    (step s e).queueAlive = false ∧ (step s e).submitted = s.submitted ∧
      (step s e).sent = s.sent ∧ (step s e).outcome = s.outcome := by
  cases e with
  | stopMsg => rw [step_stop_dead s hdead]; exact ⟨hdead, rfl, rfl, rfl⟩
  | resolve idx =>
    cases hin : s.inflight with
    | none => rw [step_resolve_none s idx hin]; exact ⟨hdead, rfl, rfl, rfl⟩
    | some c =>
      by_cases hpos : 0 ≤ idx
      · rw [step_resolve_pos_dead s c idx hin hpos hdead]
        exact ⟨hdead, rfl, rfl, rfl⟩
      · rw [step_resolve_neg_dead s c idx hin (by omega) hdead]
        exact ⟨hdead, rfl, rfl, rfl⟩
  | fail =>
    cases hin : s.inflight with
    | none => rw [step_fail_none s hin]; exact ⟨hdead, rfl, rfl, rfl⟩
    | some c =>
      rw [step_fail_dead s c hin hdead]
      exact ⟨hdead, rfl, rfl, rfl⟩

theorem runW_dead_frame (s : WState α) (evs : List Ev)
    (hdead : s.queueAlive = false) :
    (runW s evs).queueAlive = false ∧ (runW s evs).submitted = s.submitted ∧
      (runW s evs).sent = s.sent ∧ (runW s evs).outcome = s.outcome := by
  induction evs generalizing s with
  | nil => exact ⟨hdead, rfl, rfl, rfl⟩
  | cons e rest ih =>
    obtain ⟨d1, d2, d3, d4⟩ := step_dead_frame s e hdead
    obtain ⟨r1, r2, r3, r4⟩ := ih (step s e) d1
    exact ⟨r1, r2.trans d2, r3.trans d3, r4.trans d4⟩

theorem submitNext_nil (s : WState α) (hp : s.pending = []) :
    submitNext s = emitDone s := by
  unfold submitNext; rw [hp]

theorem submitNext_cons (s : WState α) (c : Chunk α) (rest : List (Chunk α))
    (hp : s.pending = c :: rest) :
    submitNext s
      = { s with pending := rest, inflight := some c,
                 count := s.count + c.fmds.length,
                 submitted := s.submitted ++ [c] } := by
  unfold submitNext; rw [hp]

/-- C4: a stop command arriving while the search is running (the queue
exists) records cancellation, kills the queue, emits the terminal outcome at
that very step, and no chunk is ever submitted nor any message sent
afterwards, whatever events follow (the in-flight engine call may still
settle, but its result is discarded); moreover a stop issued right after the
`do`, before any chunk has resolved, emits `matched = null` with a count of
`0` or the size of the single in-flight chunk. -/
theorem claim4_stop_cancels (work : WorkItem α)
    (wid start endIdx batchSize : Nat) (evs evs' : List Ev)
    (halive :
      (runW (initState work wid start endIdx batchSize) evs).queueAlive
        = true) :
    ((step (runW (initState work wid start endIdx batchSize) evs)
        .stopMsg).stopFlag = true ∧
     (step (runW (initState work wid start endIdx batchSize) evs)
        .stopMsg).queueAlive = false ∧
     (step (runW (initState work wid start endIdx batchSize) evs)
        .stopMsg).outcome
       = (runW (initState work wid start endIdx batchSize) evs).outcome
           ++ [((runW (initState work wid start endIdx batchSize)
                  evs).matched,
                (runW (initState work wid start endIdx batchSize)
                  evs).count)] ∧
     (runW (step (runW (initState work wid start endIdx batchSize) evs)
          .stopMsg) evs').submitted
       = (runW (initState work wid start endIdx batchSize) evs).submitted ∧
     (runW (step (runW (initState work wid start endIdx batchSize) evs)
          .stopMsg) evs').sent
       = (step (runW (initState work wid start endIdx batchSize) evs)
           .stopMsg).sent) ∧
    (∀ o ∈ (step (initState work wid start endIdx batchSize)
        .stopMsg).outcome,
      o.1 = none ∧
        (o.2 = 0 ∨ ∃ c, (buildFps work.items start endIdx batchSize).head?
            = some c ∧ o.2 = c.fmds.length)) := by
  constructor
  · rw [step_stop_alive (runW (initState work wid start endIdx batchSize)
      evs) halive]
    obtain ⟨d1, d2, d3, d4⟩ := runW_dead_frame
      (emitDone { runW (initState work wid start endIdx batchSize) evs with
        stopFlag := true, pending := [] }) evs' rfl
    exact ⟨rfl, rfl, rfl, d2, d3⟩
  · cases hfps : buildFps work.items start endIdx batchSize with
    | nil =>
      intro o ho
      have hinit : initState work wid start endIdx batchSize
          = emitDone
              { work := work, wid := wid,
                pending := buildFps work.items start endIdx batchSize,
                inflight := none, count := 0, matched := none,
                stopFlag := false, queueAlive := true, sent := [],
                outcome := [], submitted := [] } :=
        submitNext_nil _ hfps
      rw [hinit, step_stop_dead _ rfl] at ho
      simp only [emitDone, List.nil_append, List.mem_singleton] at ho
      subst ho
      exact ⟨rfl, Or.inl rfl⟩
    | cons c rest =>
      intro o ho
      have hinit : initState work wid start endIdx batchSize
          =
            { work := work, wid := wid, pending := rest,
              inflight := some c,
              count := 0 + c.fmds.length, matched := none,
              stopFlag := false, queueAlive := true, sent := [],
              outcome := [], submitted := [] ++ [c] } :=
        submitNext_cons _ c rest hfps
      rw [hinit, step_stop_alive _ rfl] at ho
      simp only [emitDone, List.nil_append, List.mem_singleton] at ho
      subst ho
      refine ⟨rfl, Or.inr ⟨c, ?_, ?_⟩⟩
      · rfl
      · simp

/-- Witness for C4: three items, batches of two, stop right after the `do`
and again with the in-flight chunk resolving afterwards. -/
theorem claim4_stop_cancels_witness :
    ((runW (initState (⟨1, 0, [10, 11, 12]⟩ : WorkItem Nat) 7 0 2 2)
        []).queueAlive = true) ∧
    (((step (runW (initState (⟨1, 0, [10, 11, 12]⟩ : WorkItem Nat) 7 0 2 2)
        []) .stopMsg).stopFlag = true ∧
      (step (runW (initState (⟨1, 0, [10, 11, 12]⟩ : WorkItem Nat) 7 0 2 2)
        []) .stopMsg).queueAlive = false ∧
      (step (runW (initState (⟨1, 0, [10, 11, 12]⟩ : WorkItem Nat) 7 0 2 2)
        []) .stopMsg).outcome
        = (runW (initState (⟨1, 0, [10, 11, 12]⟩ : WorkItem Nat) 7 0 2 2)
            []).outcome
          ++ [((runW (initState (⟨1, 0, [10, 11, 12]⟩ : WorkItem Nat) 7 0 2 2)
                  []).matched,
               (runW (initState (⟨1, 0, [10, 11, 12]⟩ : WorkItem Nat) 7 0 2 2)
                  []).count)] ∧
      (runW (step (runW (initState (⟨1, 0, [10, 11, 12]⟩ : WorkItem Nat)
          7 0 2 2) []) .stopMsg) [Ev.resolve 0]).submitted
        = (runW (initState (⟨1, 0, [10, 11, 12]⟩ : WorkItem Nat) 7 0 2 2)
            []).submitted ∧
      (runW (step (runW (initState (⟨1, 0, [10, 11, 12]⟩ : WorkItem Nat)
          7 0 2 2) []) .stopMsg) [Ev.resolve 0]).sent
        = (step (runW (initState (⟨1, 0, [10, 11, 12]⟩ : WorkItem Nat)
            7 0 2 2) []) .stopMsg).sent) ∧
    (∀ o ∈ (step (initState (⟨1, 0, [10, 11, 12]⟩ : WorkItem Nat) 7 0 2 2)
        .stopMsg).outcome,
      o.1 = none ∧
        (o.2 = 0 ∨ ∃ c, (buildFps [10, 11, 12] 0 2 2).head?
            = some c ∧ o.2 = c.fmds.length))) :=
  ⟨by decide,
    claim4_stop_cancels (⟨1, 0, [10, 11, 12]⟩ : WorkItem Nat) 7 0 2 2
      [] [Ev.resolve 0] (by decide)⟩

/-- C7: for an empty range (`start > endIdx`) the partitioner yields no
chunks, no chunk is ever handed to the engine, and handling the `do` itself
emits the single terminal `done` message with `matched = null` and count
`0`; the queue run of `verify` likewise reports `⟨none, 0, []⟩`. -/
theorem claim7_empty_range (work : WorkItem α)
    (wid start endIdx batchSize : Nat)
    (engine : List (Option α) → EngineResult)
    (hgt : endIdx < start) :
    buildFps work.items start endIdx batchSize = [] ∧
    (initState work wid start endIdx batchSize).submitted = [] ∧
    (initState work wid start endIdx batchSize).inflight = none ∧
    (initState work wid start endIdx batchSize).queueAlive = false ∧
    (initState work wid start endIdx batchSize).sent
        = [⟨"done", work, none, wid⟩] ∧
    (initState work wid start endIdx batchSize).outcome = [(none, 0)] ∧
    verify engine work.items start endIdx batchSize
        = ⟨none, 0, []⟩ := by
  have hnil : buildFps work.items start endIdx batchSize = [] := by
    unfold buildFps
    rw [show endIdx + 1 - start = 0 from by omega]
    rfl
  have hinit : initState work wid start endIdx batchSize
      = emitDone
          { work := work, wid := wid,
            pending := buildFps work.items start endIdx batchSize,
            inflight := none, count := 0, matched := none,
            stopFlag := false,
            queueAlive := true, sent := [], outcome := [],
            submitted := [] } :=
    submitNext_nil _ hnil
  have hver : verify engine work.items start endIdx batchSize
      = ⟨none, 0, []⟩ := by
    unfold verify
    rw [hnil]
    rfl
  rw [hinit]
  exact ⟨hnil, rfl, rfl, rfl, rfl, rfl, hver⟩

/-- Witness for C7 at `start = 1 > 0 = endIdx`. -/
theorem claim7_empty_range_witness :
    (0:Nat) < 1 ∧
    (buildFps ([] : List Nat) 1 0 4 = [] ∧
      (initState (⟨1, 0, []⟩ : WorkItem Nat) 3 1 0 4).submitted = [] ∧
      (initState (⟨1, 0, []⟩ : WorkItem Nat) 3 1 0 4).inflight = none ∧
      (initState (⟨1, 0, []⟩ : WorkItem Nat) 3 1 0 4).queueAlive = false ∧
      (initState (⟨1, 0, []⟩ : WorkItem Nat) 3 1 0 4).sent
        = [⟨"done", ⟨1, 0, []⟩, none, 3⟩] ∧
      (initState (⟨1, 0, []⟩ : WorkItem Nat) 3 1 0 4).outcome
        = [(none, 0)] ∧
      verify noMatchEngine ([] : List Nat) 1 0 4 = ⟨none, 0, []⟩) :=
  ⟨by decide,
    claim7_empty_range (⟨1, 0, []⟩ : WorkItem Nat) 3 1 0 4 noMatchEngine
      (by decide)⟩
